import Mathlib

/-!
Verification of the rule-based audit/correction engine of `src/app.py`
(`GovernanceEngine.audit_content`, `GovernanceEngine._apply_fixes`,
`render_diff`, `render_github_preview`).

Documents are modelled as `List Char` (Python strings).  Python's
substring test `p in s` is `occB p s`, and Python's
`str.replace(old, new)` (global, leftmost, non-overlapping literal
replacement) is `repl old new s`.
-/

/-- Characters of a document, i.e. a Python string. -/
abbrev LC := List Char

/-- `prefB p s`: `p` is a leading segment of `s` (Boolean). -/
def prefB : LC → LC → Bool
  | [], _ => true
  | _ :: _, [] => false
  | a :: ps, b :: ss => a == b && prefB ps ss

/-- `PrefOf p s`: `p` is a leading segment of `s`. -/
def PrefOf (p s : LC) : Prop := ∃ v, p ++ v = s

/-- `occB p s`: `p` occurs as a contiguous substring of `s` (Python `p in s`). -/
def occB (p : LC) : LC → Bool
  | [] => p.isEmpty
  | c :: rest => prefB p (c :: rest) || occB p rest

/-- `Occ p s`: `p` occurs as a contiguous substring of `s`. -/
def Occ (p s : LC) : Prop := ∃ u v, u ++ p ++ v = s

theorem prefB_iff {p s : LC} : prefB p s = true ↔ PrefOf p s := by
  induction p generalizing s with
  | nil => simp [prefB, PrefOf]
  | cons a ps ih =>
    cases s with
    | nil => simp [prefB, PrefOf]
    | cons b ss =>
      simp only [prefB, Bool.and_eq_true, beq_iff_eq, ih, PrefOf]
      constructor
      · rintro ⟨rfl, v, rfl⟩; exact ⟨v, rfl⟩
      · rintro ⟨v, hv⟩
        injection hv with h1 h2
        exact ⟨h1, v, h2⟩

instance (p s : LC) : Decidable (PrefOf p s) :=
  decidable_of_iff (prefB p s = true) prefB_iff

theorem occ_nil_iff {p : LC} : Occ p [] ↔ p = [] := by
  constructor
  · rintro ⟨u, v, h⟩
    rcases List.append_eq_nil.1 h with ⟨h1, h2⟩
    exact (List.append_eq_nil.1 h1).2
  · rintro rfl; exact ⟨[], [], rfl⟩

theorem occ_cons_iff {p : LC} {c : Char} {s : LC} :
    Occ p (c :: s) ↔ PrefOf p (c :: s) ∨ Occ p s := by
  constructor
  · rintro ⟨u, v, h⟩
    cases u with
    | nil => exact Or.inl ⟨v, by simpa using h⟩
    | cons d u' =>
      injection h with h1 h2
      exact Or.inr ⟨u', v, h2⟩
  · rintro (⟨v, hv⟩ | ⟨u, v, h⟩)
    · exact ⟨[], v, by simpa using hv⟩
    · exact ⟨c :: u, v, by rw [← h]; rfl⟩

theorem occB_iff {p s : LC} : occB p s = true ↔ Occ p s := by
  induction s with
  | nil => simp [occB, List.isEmpty_iff, occ_nil_iff]
  | cons c rest ih =>
    simp only [occB, Bool.or_eq_true, prefB_iff, ih, occ_cons_iff]

instance (p s : LC) : Decidable (Occ p s) :=
  decidable_of_iff (occB p s = true) occB_iff

theorem Occ.of_pref {p s : LC} (h : PrefOf p s) : Occ p s := by
  rcases h with ⟨v, rfl⟩; exact ⟨[], v, rfl⟩

theorem Occ.self (p : LC) : Occ p p := ⟨[], [], by simp⟩

theorem Occ.append_right {p s : LC} (w : LC) (h : Occ p s) : Occ p (s ++ w) := by
  rcases h with ⟨u, v, rfl⟩
  exact ⟨u, v ++ w, by simp⟩

theorem Occ.append_left {p s : LC} (w : LC) (h : Occ p s) : Occ p (w ++ s) := by
  rcases h with ⟨u, v, rfl⟩
  exact ⟨w ++ u, v, by simp⟩

theorem Occ.trans {x y z : LC} (h1 : Occ x y) (h2 : Occ y z) : Occ x z := by
  rcases h1 with ⟨u, v, rfl⟩
  rcases h2 with ⟨a, b, rfl⟩
  exact ⟨a ++ u, v ++ b, by simp⟩

theorem Occ.of_append_left {a b s : LC} (h : Occ (a ++ b) s) : Occ a s := by
  rcases h with ⟨u, v, rfl⟩
  exact ⟨u, b ++ v, by simp⟩

theorem occ_nil (s : LC) : Occ [] s := ⟨[], s, by simp⟩

/-- `Ovl a b`: some nonempty trailing segment of `a` is a leading segment of
`b` (the two strings can overlap when placed side by side, `a` first). -/
def Ovl (a b : LC) : Prop := ∃ i, i < a.length ∧ PrefOf (a.drop i) b

/-- Boolean version of `Ovl`. -/
def ovlB (a b : LC) : Bool := (List.range a.length).any (fun i => prefB (a.drop i) b)

theorem ovlB_iff {a b : LC} : ovlB a b = true ↔ Ovl a b := by
  simp [ovlB, Ovl, List.any_eq_true, List.mem_range, prefB_iff]

instance (a b : LC) : Decidable (Ovl a b) :=
  decidable_of_iff (ovlB a b = true) ovlB_iff

/-- `Touches q t` holds when an occurrence of `q` and an occurrence of `t`
inside a common string can share at least one character position:
one contains the other, or a nonempty trailing segment of one is a leading
segment of the other. -/
def Touches (q t : LC) : Prop := Occ q t ∨ Occ t q ∨ Ovl q t ∨ Ovl t q

instance (q t : LC) : Decidable (Touches q t) := by
  unfold Touches; infer_instance

theorem Touches.of_nil_left (t : LC) : Touches [] t := Or.inl (occ_nil t)

theorem ne_nil_of_not_touches_left {q t : LC} (h : ¬ Touches q t) : q ≠ [] := by
  rintro rfl; exact h (Touches.of_nil_left t)

theorem ne_nil_of_not_touches_right {q t : LC} (h : ¬ Touches q t) : t ≠ [] := by
  rintro rfl; exact h (Or.inr (Or.inl (occ_nil q)))

/-- If `q` and `t` cannot touch, then in any string containing an occurrence
of each, the `q`-occurrence lies strictly before or strictly after the
`t`-occurrence. -/
theorem sep_of_not_touches {q t : LC} (h : ¬ Touches q t) :
    ∀ {u v w z : LC}, u ++ q ++ v = w ++ t ++ z →
      (∃ m, w = u ++ q ++ m) ∨ (∃ m, u = w ++ t ++ m) := by
  intro u v w z e
  rw [List.append_assoc, List.append_assoc] at e
  rcases List.append_eq_append_iff.1 e with ⟨m, hw, hm⟩ | ⟨m, hu, hm⟩
  · -- w = u ++ m and q ++ v = m ++ (t ++ z)
    rcases List.append_eq_append_iff.1 hm with ⟨k, hk1, hk2⟩ | ⟨k, hk1, hk2⟩
    · -- m = q ++ k : q ends before t starts
      exact Or.inl ⟨k, by rw [hw, hk1, List.append_assoc]⟩
    · -- q = m ++ k and t ++ z = k ++ v
      rcases List.append_eq_append_iff.1 hk2 with ⟨j, hj1, hj2⟩ | ⟨j, hj1, hj2⟩
      · -- k = t ++ j : t occurs inside q
        exact absurd (Or.inr (Or.inl ⟨m, j, by rw [hk1, hj1, List.append_assoc]⟩)) h
      · -- t = k ++ j
        cases k with
        | nil =>
          exact Or.inl ⟨[], by rw [hw, hk1]; simp⟩
        | cons x xs =>
          refine absurd (Or.inr (Or.inr (Or.inl ⟨m.length, ?_, ?_⟩))) h
          · rw [hk1]; simp
          · rw [hk1, List.drop_left]; exact ⟨j, hj1.symm⟩
  · -- u = w ++ m and t ++ z = m ++ (q ++ v)
    rcases List.append_eq_append_iff.1 hm with ⟨k, hk1, hk2⟩ | ⟨k, hk1, hk2⟩
    · -- m = t ++ k : t ends before q starts
      exact Or.inr ⟨k, by rw [hu, hk1, List.append_assoc]⟩
    · -- t = m ++ k and q ++ v = k ++ z
      rcases List.append_eq_append_iff.1 hk2 with ⟨j, hj1, hj2⟩ | ⟨j, hj1, hj2⟩
      · -- k = q ++ j : q occurs inside t
        exact absurd (Or.inl ⟨m, j, by rw [hk1, hj1, List.append_assoc]⟩) h
      · -- q = k ++ j
        cases k with
        | nil =>
          exact Or.inr ⟨[], by rw [hu, hk1]; simp⟩
        | cons x xs =>
          refine absurd (Or.inr (Or.inr (Or.inr ⟨m.length, ?_, ?_⟩))) h
          · rw [hk1]; simp
          · rw [hk1, List.drop_left]; exact ⟨j, hj1.symm⟩

/-- Fuel-indexed scanner behind `repl`; the fuel is an upper bound on the
input length, so the fuel-exhausted arm is never reached. -/
def replFuel (q r : LC) : Nat → LC → LC
  | _, [] => []
  | 0, s => s
  | Nat.succ n, c :: cs =>
    if q ≠ [] ∧ prefB q (c :: cs) = true then
      r ++ replFuel q r n ((c :: cs).drop q.length)
    else
      c :: replFuel q r n cs

/-- Python's `s.replace(q, r)`: global, leftmost, non-overlapping literal
replacement of `q` by `r` in `s` (for nonempty `q`; for `q = []` it leaves
`s` unchanged — the engine never registers an empty find string). -/
def repl (q r : LC) (s : LC) : LC := replFuel q r s.length s

theorem replFuel_fuel_irrel (q r : LC) :
    ∀ (n m : Nat) (s : LC), s.length ≤ n → s.length ≤ m →
      replFuel q r n s = replFuel q r m s := by
  intro n
  induction n with
  | zero =>
    intro m s hn _
    have : s = [] := List.length_eq_zero.1 (Nat.le_zero.1 hn)
    subst this
    cases m <;> rfl
  | succ n ih =>
    intro m s hn hm
    cases s with
    | nil => cases m <;> rfl
    | cons c cs =>
      cases m with
      | zero => simp at hm
      | succ m' =>
        simp only [List.length_cons, Nat.succ_le_succ_iff] at hn hm
        by_cases h : q ≠ [] ∧ prefB q (c :: cs) = true
        · rw [replFuel, replFuel, if_pos h, if_pos h]
          have hd : ((c :: cs).drop q.length).length ≤ cs.length := by
            have : 0 < q.length := List.length_pos.2 h.1
            simp only [List.length_drop, List.length_cons]
            omega
          rw [ih _ _ (le_trans hd hn) (le_trans hd hm)]
        · rw [replFuel, replFuel, if_neg h, if_neg h]
          rw [ih _ _ hn hm]

theorem repl_nil (q r : LC) : repl q r [] = [] := rfl

theorem repl_cons_match {q r : LC} {c : Char} {cs : LC}
    (hq : q ≠ []) (hp : prefB q (c :: cs) = true) :
    repl q r (c :: cs) = r ++ repl q r ((c :: cs).drop q.length) := by
  have hd : ((c :: cs).drop q.length).length ≤ cs.length := by
    have : 0 < q.length := List.length_pos.2 hq
    simp only [List.length_drop, List.length_cons]
    omega
  rw [repl, List.length_cons, replFuel, if_pos ⟨hq, hp⟩, repl]
  rw [replFuel_fuel_irrel q r cs.length _ _ hd (le_refl _)]

theorem repl_cons_nomatch {q r : LC} {c : Char} {cs : LC}
    (h : ¬ (q ≠ [] ∧ prefB q (c :: cs) = true)) :
    repl q r (c :: cs) = c :: repl q r cs := by
  rw [repl, List.length_cons, replFuel, if_neg h, repl]

theorem repl_nil_pattern (r : LC) (s : LC) : repl [] r s = s := by
  induction s with
  | nil => rfl
  | cons c cs ih => rw [repl_cons_nomatch (by simp), ih]

theorem intercalate_nil (sep : LC) : List.intercalate sep ([] : List LC) = [] := by
  simp [List.intercalate]

theorem intercalate_single (sep x : LC) : List.intercalate sep [x] = x := by
  simp [List.intercalate]

theorem intercalate_cons₂ (sep x y : LC) (zs : List LC) :
    List.intercalate sep (x :: y :: zs) = x ++ sep ++ List.intercalate sep (y :: zs) := by
  simp [List.intercalate, List.intersperse]

theorem intercalate_cons_cons (sep : LC) (c : Char) (p : LC) (ps : List LC) :
    List.intercalate sep ((c :: p) :: ps) = c :: List.intercalate sep (p :: ps) := by
  cases ps with
  | nil => rw [intercalate_single, intercalate_single]
  | cons y ys => rw [intercalate_cons₂, intercalate_cons₂]; rfl

/-- Decomposition of `repl`: the input splits into the gaps between the
leftmost non-overlapping matches of `q`, the output replaces each match
by `r`, and no gap contains an occurrence of `q`. -/
theorem repl_decomp (q r : LC) (hq : q ≠ []) :
    ∀ s : LC, ∃ parts : List LC, parts ≠ [] ∧
      s = List.intercalate q parts ∧
      repl q r s = List.intercalate r parts ∧
      ∀ p ∈ parts, ¬ Occ q p := by
  suffices H : ∀ n, ∀ s : LC, s.length = n → ∃ parts : List LC, parts ≠ [] ∧
      s = List.intercalate q parts ∧
      repl q r s = List.intercalate r parts ∧
      ∀ p ∈ parts, ¬ Occ q p from fun s => H s.length s rfl
  intro n
  induction n using Nat.strong_induction_on with
  | _ n ih =>
  intro s hn
  cases s with
  | nil =>
    refine ⟨[[]], by simp, by rw [intercalate_single], by rw [repl_nil, intercalate_single], ?_⟩
    intro p hp
    simp only [List.mem_singleton] at hp
    subst hp
    rw [occ_nil_iff]
    exact hq
  | cons c cs =>
    by_cases hm : prefB q (c :: cs) = true
    · -- a match at the start
      rcases prefB_iff.1 hm with ⟨rest, hrest⟩
      have hdrop : (c :: cs).drop q.length = rest := by rw [← hrest, List.drop_left]
      have hlen : rest.length < n := by
        rw [← hn, ← hrest, List.length_append]
        have : 0 < q.length := List.length_pos.2 hq
        omega
      rcases ih rest.length hlen rest rfl with ⟨parts', hne', hs', hr', hocc'⟩
      cases parts' with
      | nil => exact absurd rfl hne'
      | cons p0 ps =>
        refine ⟨[] :: p0 :: ps, by simp, ?_, ?_, ?_⟩
        · rw [intercalate_cons₂, ← hs', ← hrest]; simp
        · rw [repl_cons_match hq hm, hdrop, hr', intercalate_cons₂]; simp
        · intro p hp
          rcases List.mem_cons.1 hp with rfl | hp'
          · rw [occ_nil_iff]; exact hq
          · exact hocc' p hp'
    · -- no match at the start
      have hstep : repl q r (c :: cs) = c :: repl q r cs :=
        repl_cons_nomatch (by simp [hm])
      have hlt : cs.length < n := by simp only [List.length_cons] at hn; omega
      rcases ih cs.length hlt cs rfl with ⟨parts', hne', hs', hr', hocc'⟩
      cases parts' with
      | nil => exact absurd rfl hne'
      | cons p0 ps =>
        have hext : ∃ X, c :: cs = (c :: p0) ++ X := by
          cases ps with
          | nil =>
            rw [intercalate_single] at hs'
            exact ⟨[], by simp [hs']⟩
          | cons y ys =>
            rw [intercalate_cons₂] at hs'
            exact ⟨q ++ List.intercalate q (y :: ys), by simp [hs']⟩
        refine ⟨(c :: p0) :: ps, by simp, ?_, ?_, ?_⟩
        · rw [intercalate_cons_cons, ← hs']
        · rw [hstep, hr', intercalate_cons_cons]
        · intro p hp
          rcases List.mem_cons.1 hp with rfl | hp'
          · intro hoc
            rcases occ_cons_iff.1 hoc with hpre | hocc
            · -- then q would also be a leading segment of c :: cs
              rcases hpre with ⟨v, hv⟩
              rcases hext with ⟨X, hX⟩
              exact hm (prefB_iff.2 ⟨v ++ X, by rw [hX, ← hv]; simp⟩)
            · exact hocc' p0 (List.mem_cons_self _ _) hocc
          · exact hocc' p (List.mem_cons_of_mem _ hp')

theorem occ_intercalate_of_mem {x sep : LC} {parts : List LC} {p : LC}
    (hp : p ∈ parts) (h : Occ x p) : Occ x (List.intercalate sep parts) := by
  induction parts with
  | nil => cases hp
  | cons a rest ih =>
    rcases List.mem_cons.1 hp with rfl | hp'
    · cases rest with
      | nil => rw [intercalate_single]; exact h
      | cons b bs =>
        rw [intercalate_cons₂, List.append_assoc]
        exact h.append_right _
    · cases rest with
      | nil => cases hp'
      | cons b bs =>
        rw [intercalate_cons₂, List.append_assoc]
        exact ((ih hp').append_left sep).append_left a

theorem occ_part_of_occ_intercalate {x sep : LC} (hx : ¬ Touches x sep) :
    ∀ {parts : List LC}, Occ x (List.intercalate sep parts) → ∃ p ∈ parts, Occ x p := by
  intro parts
  induction parts with
  | nil =>
    rw [intercalate_nil, occ_nil_iff]
    intro hnil
    exact absurd hnil (ne_nil_of_not_touches_left hx)
  | cons a rest ih =>
    cases rest with
    | nil =>
      rw [intercalate_single]
      intro h
      exact ⟨a, List.mem_singleton_self a, h⟩
    | cons b bs =>
      rw [intercalate_cons₂]
      rintro ⟨u, v, huv⟩
      rcases sep_of_not_touches hx huv with ⟨m, hm⟩ | ⟨m, hm⟩
      · exact ⟨a, List.mem_cons_self _ _, ⟨u, m, hm.symm⟩⟩
      · subst hm
        simp only [List.append_assoc] at huv
        have h1 := List.append_cancel_left huv
        have h2 := List.append_cancel_left h1
        rcases ih ⟨m, v, by rw [List.append_assoc]; exact h2⟩ with ⟨p, hp, hop⟩
        exact ⟨p, List.mem_cons_of_mem _ hp, hop⟩

/-- If `q` occurs in `s`, the replacement string `r` occurs in
`s.replace(q, r)`. -/
theorem occ_repl_insert {q r s : LC} (hq : q ≠ []) (h : Occ q s) :
    Occ r (repl q r s) := by
  rcases repl_decomp q r hq s with ⟨parts, hne, hs, hr, hocc⟩
  cases parts with
  | nil => exact absurd rfl hne
  | cons p0 ps =>
    cases ps with
    | nil =>
      rw [intercalate_single] at hs
      exact absurd (hs ▸ h) (hocc p0 (List.mem_cons_self _ _))
    | cons p1 ps' =>
      rw [hr, intercalate_cons₂, List.append_assoc]
      exact ((Occ.self r).append_right _).append_left _

/-- A string that cannot touch the find string survives a replacement. -/
theorem occ_repl_of_occ {x q r s : LC} (hx : ¬ Touches x q) (h : Occ x s) :
    Occ x (repl q r s) := by
  have hq : q ≠ [] := ne_nil_of_not_touches_right hx
  rcases repl_decomp q r hq s with ⟨parts, hne, hs, hr, hocc⟩
  rw [hs] at h
  rcases occ_part_of_occ_intercalate hx h with ⟨p, hp, hop⟩
  rw [hr]
  exact occ_intercalate_of_mem hp hop

/-- After replacing `q` by a string `r` that `q` cannot touch, no
occurrence of `q` remains. -/
theorem not_occ_repl_self {q r : LC} (hq : q ≠ []) (hqr : ¬ Touches q r) (s : LC) :
    ¬ Occ q (repl q r s) := by
  rcases repl_decomp q r hq s with ⟨parts, hne, hs, hr, hocc⟩
  rw [hr]
  intro h
  rcases occ_part_of_occ_intercalate hqr h with ⟨p, hp, hop⟩
  exact hocc p hp hop

/-- A replacement cannot create an occurrence of a string `x` that cannot
touch the replacement string `r`. -/
theorem not_occ_repl_of_not_occ {x q r s : LC} (hxr : ¬ Touches x r) (h : ¬ Occ x s) :
    ¬ Occ x (repl q r s) := by
  by_cases hq : q = []
  · subst hq; rw [repl_nil_pattern]; exact h
  rcases repl_decomp q r hq s with ⟨parts, hne, hs, hr, hocc⟩
  rw [hr]
  intro hx
  rcases occ_part_of_occ_intercalate hxr hx with ⟨p, hp, hop⟩
  exact h (hs ▸ Occ.trans hop (occ_intercalate_of_mem hp (Occ.self p)))

/-- One audit-log entry, as appended by `GovernanceEngine.audit_content`
(`src/app.py`): a dict with keys `type`, `severity`, `msg`. -/
structure Finding where
  type : LC
  severity : LC
  msg : LC
  deriving DecidableEq

/-- One `if ... in text:` block of `GovernanceEngine.audit_content`: a
predicate over the input text, the log entry appended when it holds, and
the `(find, replace)` pairs inserted into the `corrections` dict. -/
structure Rule where
  pred : LC → Bool
  finding : Finding
  pairs : List (LC × LC)

/-- `corrections[k] = v` on a Python (insertion-ordered) dict: an existing
key keeps its position and gets the new value, a new key is appended. -/
def dinsert (m : List (LC × LC)) (k v : LC) : List (LC × LC) :=
  if m.any (fun p => p.1 == k) then
    m.map (fun p => if p.1 == k then (p.1, v) else p)
  else
    m ++ [(k, v)]

/-- Splunk rule 1 (`src/app.py` lines 45-47): EOL version 1.3.0. -/
def rSplunkVersion : Rule :=
  ⟨fun t => occB ("version 1.3.0".toList) t,
   ⟨"LOGIC".toList, "High".toList, "Lifecycle: v1.3.0 is EOL. Updated to 1.4.2.".toList⟩,
   [("version 1.3.0".toList, "version 1.4.2".toList)]⟩

/-- Splunk rule 2 (`src/app.py` lines 48-51): management port 80 vs 8089. -/
def rSplunkPort : Rule :=
  ⟨fun t => occB ("port 80".toList) t || occB ("port=80".toList) t,
   ⟨"LOGIC".toList, "High".toList, "Accuracy: Mgmt port is 8089, not 80.".toList⟩,
   [("port=80".toList, "port=8089".toList), ("port 80".toList, "port 8089".toList)]⟩

/-- Splunk rule 3 (`src/app.py` lines 52-54): Mumbai launch date. -/
def rSplunkDate : Rule :=
  ⟨fun t => occB ("October 15, 2025".toList) t,
   ⟨"LOGIC".toList, "Medium".toList, "Roadmap: Mumbai launch moved to June 2025.".toList⟩,
   [("October 15, 2025".toList, "June 15, 2025".toList)]⟩

/-- Splunk rule 4 (`src/app.py` lines 55-59): basic-auth credentials. -/
def rSplunkAuth : Rule :=
  ⟨fun t => occB ("username=".toList) t,
   ⟨"SECURITY".toList, "Critical".toList, "Auth: Basic Auth deprecated. Used Token.".toList⟩,
   [("username='admin',".toList, "splunk_token=os.environ['SPLUNK_TOKEN']".toList),
    ("password='changeme'".toList, "".toList),
    ("username=".toList, "# Auth updated to Token".toList)]⟩

/-- Splunk rule 5 (`src/app.py` lines 60-62): passive-voice sentence. -/
def rSplunkVoice : Rule :=
  ⟨fun t => occB ("Data is not sent".toList) t,
   ⟨"STYLE".toList, "Low".toList, "Voice: Passive voice rewritten.".toList⟩,
   [("Data is not sent to third-party LLM service providers".toList,
     "Splunk does not send data to third-party LLM service providers".toList)]⟩

/-- The `=== MODE 1: SPLUNK ENTERPRISE ===` branch of `audit_content`
(`src/app.py` lines 44-62), one `Rule` per `if` block, in source order. -/
def splunkRules : List Rule :=
  [rSplunkVersion, rSplunkPort, rSplunkDate, rSplunkAuth, rSplunkVoice]

/-- The `=== MODE 2: NVIDIA OMNIVERSE ===` branch (`src/app.py` lines 65-75). -/
def omniverseRules : List Rule := [
  ⟨fun t => occB ("Usd.Stage.Open".toList) t,
   ⟨"LOGIC".toList, "Critical".toList, "Context: Manual Open forbidden in Kit.".toList⟩,
   [("Usd.Stage.Open(\"test.usd\")".toList, "omni.usd.get_context().get_stage()".toList),
    ("# opens stage manually".toList, "# Gets active stage context".toList)]⟩,
  ⟨fun t => occB ("def make_cube".toList) t && !occB ("async".toList) t,
   ⟨"LOGIC".toList, "High".toList, "Performance: Main thread blocking. Added async.".toList⟩,
   [("def make_cube():".toList, "async def make_cube():".toList)]⟩,
  ⟨fun t => occB ("cube is created".toList) t,
   ⟨"STYLE".toList, "Low".toList, "Voice: Passive voice rewritten.".toList⟩,
   [("# cube is created".toList, "# Asynchronously creates cube".toList)]⟩]

/-- The `=== MODE 3: STANDARD PYTHON ===` branch (`src/app.py` lines 78-84). -/
def pythonRules : List Rule := [
  ⟨fun t => occB ("def process(x, y)".toList) t,
   ⟨"LOGIC".toList, "Medium".toList, "Quality: Missing Type Hints.".toList⟩,
   [("def process(x, y):".toList, "def process_data(data: list, multiplier: int) -> list:".toList)]⟩,
  ⟨fun t => occB ("data is processed".toList) t,
   ⟨"STYLE".toList, "Low".toList, "Docs: Missing Docstring.".toList⟩,
   [("# data is processed".toList, "\"\"\"Processes data list safely.\"\"\"".toList)]⟩]

/-- The `if self.mode == ... / elif ... / elif ...` dispatch of
`audit_content`; any other mode falls through and checks nothing. -/
def rulesFor (mode : LC) : List Rule :=
  if mode = "Splunk Enterprise".toList then splunkRules
  else if mode = "NVIDIA Omniverse".toList then omniverseRules
  else if mode = "Standard Python (PEP8)".toList then pythonRules
  else []

/-- One iteration of the `if` chain: append the log entry and merge the
rule's correction pairs when the predicate holds on the input text. -/
def runStep (t : LC) (st : List Finding × List (LC × LC)) (r : Rule) :
    List Finding × List (LC × LC) :=
  if r.pred t then
    (st.1 ++ [r.finding], r.pairs.foldl (fun m p => dinsert m p.1 p.2) st.2)
  else st

/-- Running the whole `if` chain of one mode: the audit log and the
`corrections` dict produced for input `t`. -/
def runRules (rs : List Rule) (t : LC) : List Finding × List (LC × LC) :=
  rs.foldl (runStep t) ([], [])

/-- `GovernanceEngine._apply_fixes` (`src/app.py` lines 88-92): apply each
correction, in dict insertion order, by global literal replacement. -/
def applyFixes (t : LC) (cor : List (LC × LC)) : LC :=
  cor.foldl (fun ft p => repl p.1 p.2 ft) t

/-- The engine object: the constructor-set mode and the instance-held
`audit_log` (overwritten on each call). -/
structure GovernanceEngine where
  mode : LC
  audit_log : List Finding
  deriving DecidableEq

/-- `GovernanceEngine.audit_content` (`src/app.py` lines 38-92): resets the
audit log, runs the mode's `if` chain over the original input text, and
returns the updated engine together with the corrected text.  The
`time.sleep(1.0)` UI pacing has no effect on the result and is omitted. -/
def auditContent (e : GovernanceEngine) (text : LC) : GovernanceEngine × LC :=
  let res := runRules (rulesFor e.mode) text
  (⟨e.mode, res.1⟩, applyFixes text res.2)

theorem applyFixes_nil (t : LC) : applyFixes t [] = t := rfl

theorem applyFixes_cons (t : LC) (p : LC × LC) (L : List (LC × LC)) :
    applyFixes t (p :: L) = applyFixes (repl p.1 p.2 t) L := rfl

theorem applyFixes_append (t : LC) (L M : List (LC × LC)) :
    applyFixes t (L ++ M) = applyFixes (applyFixes t L) M :=
  List.foldl_append _ _ _ _

theorem occ_applyFixes {x : LC} :
    ∀ (L : List (LC × LC)) (s : LC), (∀ p ∈ L, ¬ Touches x p.1) → Occ x s →
      Occ x (applyFixes s L) := by
  intro L
  induction L with
  | nil => intro s _ h; exact h
  | cons p L ih =>
    intro s hL h
    rw [applyFixes_cons]
    exact ih _ (fun p' hp' => hL p' (List.mem_cons_of_mem _ hp'))
      (occ_repl_of_occ (hL p (List.mem_cons_self _ _)) h)

theorem not_occ_applyFixes {x : LC} :
    ∀ (L : List (LC × LC)) (s : LC), (∀ p ∈ L, ¬ Touches x p.2) → ¬ Occ x s →
      ¬ Occ x (applyFixes s L) := by
  intro L
  induction L with
  | nil => intro s _ h; exact h
  | cons p L ih =>
    intro s hL h
    rw [applyFixes_cons]
    exact ih _ (fun p' hp' => hL p' (List.mem_cons_of_mem _ hp'))
      (not_occ_repl_of_not_occ (hL p (List.mem_cons_self _ _)) h)

/-- The log entries of the rules that fire on `t`, in source order:
every predicate is applied to the original input text `t`. -/
def firedFindings (rs : List Rule) (t : LC) : List Finding :=
  (rs.filter (fun r => r.pred t)).map (fun r => r.finding)

/-- All correction pairs of a rule list, in source order. -/
def allPairs (rs : List Rule) : List (LC × LC) :=
  (rs.map (fun r => r.pairs)).flatten

theorem allPairs_nil : allPairs [] = [] := rfl

theorem allPairs_cons (r : Rule) (rs : List Rule) :
    allPairs (r :: rs) = r.pairs ++ allPairs rs := by
  simp [allPairs]

theorem allPairs_append (rs₁ rs₂ : List Rule) :
    allPairs (rs₁ ++ rs₂) = allPairs rs₁ ++ allPairs rs₂ := by
  simp [allPairs]

theorem mem_allPairs_filter {p : Rule → Bool} {rs : List Rule} {x : LC × LC}
    (h : x ∈ allPairs (rs.filter p)) : x ∈ allPairs rs := by
  simp only [allPairs, List.mem_flatten, List.mem_map] at h ⊢
  rcases h with ⟨l, ⟨r, hr, rfl⟩, hx⟩
  exact ⟨r.pairs, ⟨r, (List.mem_filter.1 hr).1, rfl⟩, hx⟩

theorem runRules_go_fst (t : LC) :
    ∀ (rs : List Rule) (accL : List Finding) (accC : List (LC × LC)),
      (rs.foldl (runStep t) (accL, accC)).1 = accL ++ firedFindings rs t := by
  intro rs
  induction rs with
  | nil => intro accL accC; simp [firedFindings]
  | cons r rs ih =>
    intro accL accC
    by_cases hp : r.pred t
    · simp only [List.foldl_cons, runStep, if_pos hp, ih]
      simp [firedFindings, List.filter_cons, hp]
    · simp only [List.foldl_cons, runStep, if_neg hp, ih]
      simp [firedFindings, List.filter_cons, hp]

theorem dinsert_of_not_mem {m : List (LC × LC)} {k : LC} (v : LC)
    (h : ∀ y ∈ m, y.1 ≠ k) : dinsert m k v = m ++ [(k, v)] := by
  rw [dinsert, if_neg]
  simp only [List.any_eq_true, beq_iff_eq]
  rintro ⟨y, hy, hk⟩
  exact h y hy hk

theorem fold_dinsert :
    ∀ (ps : List (LC × LC)) (acc : List (LC × LC)),
      (∀ x ∈ ps, ∀ y ∈ acc, y.1 ≠ x.1) → (ps.map Prod.fst).Nodup →
      ps.foldl (fun m p => dinsert m p.1 p.2) acc = acc ++ ps := by
  intro ps
  induction ps with
  | nil => intro acc _ _; simp
  | cons p ps ih =>
    intro acc hdisj hnd
    simp only [List.foldl_cons]
    rw [dinsert_of_not_mem p.2 (hdisj p (List.mem_cons_self _ _))]
    rw [ih (acc ++ [p])]
    · simp
    · intro x hx y hy
      rcases List.mem_append.1 hy with hy' | hy'
      · exact hdisj x (List.mem_cons_of_mem _ hx) y hy'
      · simp only [List.mem_singleton] at hy'
        subst hy'
        simp only [List.map_cons, List.nodup_cons] at hnd
        intro hk
        exact hnd.1 (hk ▸ List.mem_map_of_mem Prod.fst hx)
    · simp only [List.map_cons, List.nodup_cons] at hnd
      exact hnd.2

theorem runRules_go_snd (t : LC) :
    ∀ (rs : List Rule) (accL : List Finding) (accC : List (LC × LC)),
      (accC.map Prod.fst ++ (allPairs rs).map Prod.fst).Nodup →
      (rs.foldl (runStep t) (accL, accC)).2 =
        accC ++ allPairs (rs.filter (fun r => r.pred t)) := by
  intro rs
  induction rs with
  | nil => intro accL accC _; simp [allPairs]
  | cons r rs ih =>
    intro accL accC hnd
    rw [allPairs_cons, List.map_append, ← List.append_assoc] at hnd
    by_cases hp : r.pred t
    · simp only [List.foldl_cons, runStep, if_pos hp]
      have hsplit := (List.nodup_append.1 hnd)
      have hacc : r.pairs.foldl (fun m p => dinsert m p.1 p.2) accC = accC ++ r.pairs := by
        apply fold_dinsert
        · intro x hx y hy
          have hdisj := (List.nodup_append.1 hsplit.1).2.2
          intro hk
          exact hdisj (List.mem_map_of_mem Prod.fst hy)
            (hk ▸ List.mem_map_of_mem Prod.fst hx)
        · exact (List.nodup_append.1 hsplit.1).2.1
      rw [hacc, ih]
      · simp [List.filter_cons, hp, allPairs_cons, List.append_assoc]
      · rw [List.map_append]
        exact hnd
    · simp only [List.foldl_cons, runStep, if_neg hp]
      rw [ih]
      · simp [List.filter_cons, hp]
      · refine List.Sublist.nodup ?_ hnd
        apply List.Sublist.append
        · exact (List.sublist_append_left _ _)
        · exact List.Sublist.refl _

theorem runRules_eq (rs : List Rule) (t : LC)
    (hnd : ((allPairs rs).map Prod.fst).Nodup) :
    runRules rs t = (firedFindings rs t, allPairs (rs.filter (fun r => r.pred t))) := by
  have h1 := runRules_go_fst t rs [] []
  have h2 := runRules_go_snd t rs [] [] (by simpa using hnd)
  simp only [List.nil_append] at h1 h2
  exact Prod.ext h1 h2

/-- Kind of a rendered diff line: `+ ` (added), `- ` (removed), or
unprefixed/`  ` (unchanged).  The `? ` guide lines emitted by the line
differ are skipped by `render_diff` and are not part of the model. -/
inductive DiffKind where
  | added
  | removed
  | unchanged
  deriving DecidableEq

/-- One line of the rendered diff: its kind and its text content. -/
structure DiffLine where
  kind : DiffKind
  content : LC
  deriving DecidableEq

/-- The line-boundary characters of Python `str.splitlines`: line feed,
carriage return, vertical tab, form feed, the separator controls FS, GS
and RS, next line, line separator and paragraph separator (`"\r\n"`
counts as a single boundary, handled in `splitlines`). -/
def lineBreaks : LC :=
  ['\n', '\r', '\x0b', '\x0c', '\x1c', '\x1d', '\x1e', '\x85', '\u2028', '\u2029']

/-- Whether `c` is one of Python's line-boundary characters. -/
def isLineBreak (c : Char) : Bool := lineBreaks.contains c

/-- Python `str.splitlines`: the list of lines of `s`, without
terminators; `"\r\n"` is one boundary, and a trailing boundary produces
no trailing empty line (`"a\nb\n"` and `"a\nb"` both give `["a", "b"]`). -/
def splitlines : LC → List LC
  | [] => []
  | [c] => if isLineBreak c then [[]] else [[c]]
  | c :: d :: cs =>
    if c = '\r' ∧ d = '\n' then [] :: splitlines cs
    else if isLineBreak c then [] :: splitlines (d :: cs)
    else
      match splitlines (d :: cs) with
      | [] => [[c]]
      | l :: ls => (c :: l) :: ls

theorem splitlines_single (c : Char) :
    splitlines [c] = if isLineBreak c then [[]] else [[c]] := rfl

theorem splitlines_cons₂ (c d : Char) (cs : LC) :
    splitlines (c :: d :: cs) =
      if c = '\r' ∧ d = '\n' then [] :: splitlines cs
      else if isLineBreak c then [] :: splitlines (d :: cs)
      else
        match splitlines (d :: cs) with
        | [] => [[c]]
        | l :: ls => (c :: l) :: ls := rfl

/-- Fuel-indexed longest-common-subsequence length; the fuel bounds the
total length of the two line lists, so the exhausted arm is unreachable. -/
def lcsFuel : Nat → List LC → List LC → Nat
  | _, [], _ => 0
  | _, _ :: _, [] => 0
  | 0, _ :: _, _ :: _ => 0
  | Nat.succ n, a :: as, b :: bs =>
    if a = b then lcsFuel n as bs + 1
    else max (lcsFuel n as (b :: bs)) (lcsFuel n (a :: as) bs)

/-- Length of a longest common subsequence of two line lists; used by the
line differ to decide which side to advance, mirroring an LCS-based line
diff such as the one behind `difflib.Differ`. -/
def lcsLen (as bs : List LC) : Nat := lcsFuel (as.length + bs.length) as bs

/-- Fuel-indexed line differ; the fuel bounds the total length of the two
line lists, so the exhausted arm is unreachable. -/
def diffFuel (n : Nat) (xs ys : List LC) : List DiffLine :=
  match xs, ys with
  | [], bs => bs.map (fun b => ⟨DiffKind.added, b⟩)
  | a :: as, [] => (a :: as).map (fun a' => ⟨DiffKind.removed, a'⟩)
  | a :: as, b :: bs =>
    match n with
    | 0 => []
    | Nat.succ n =>
      if a = b then ⟨DiffKind.unchanged, a⟩ :: diffFuel n as bs
      else if lcsLen (a :: as) bs ≤ lcsLen as (b :: bs) then
        ⟨DiffKind.removed, a⟩ :: diffFuel n as (b :: bs)
      else
        ⟨DiffKind.added, b⟩ :: diffFuel n (a :: as) bs

/-- LCS-based line diff over two lists of lines.  This models the contract
of `difflib.Differ().compare` as used by `render_diff` (`src/app.py` lines
100-114): every line of `bs` appears, in order, as an added or unchanged
line, every line of `as` as a removed or unchanged line. -/
def diffLines (as bs : List LC) : List DiffLine :=
  diffFuel (as.length + bs.length) as bs

/-- `render_diff` (`src/app.py` lines 100-114) viewed at the `DiffLine`
level: the line diff of `original.splitlines()` against
`modified.splitlines()` (the HTML wrapping is presentation only). -/
def renderDiff (original modified : LC) : List DiffLine :=
  diffLines (splitlines original) (splitlines modified)

/-- The contents of the non-removed (added or unchanged) diff lines. -/
def nonRemoved (ds : List DiffLine) : List LC :=
  ds.filterMap (fun d => if d.kind = DiffKind.removed then none else some d.content)

/-- Join lines with the newline character. -/
def joinNL (ls : List LC) : LC := List.intercalate ['\n'] ls

/-- One row of the markdown table built by `render_github_preview`
(`src/app.py` lines 118-120): the loop body
`rows += f"| {icon} **{item['type']}** | {item['msg']} |\n"`. -/
def rowMd (item : Finding) : LC :=
  "| ".toList ++
  (if item.severity = "Critical".toList then "🔴".toList else "⚠️".toList) ++
  " **".toList ++ item.type ++ "** | ".toList ++ item.msg ++ " |\n".toList

/-- `render_github_preview` (`src/app.py` lines 116-127): the markdown
report, with the fixed header lines, one table row per log entry, and the
first 200 characters of the corrected text followed by `"..."`. -/
def renderGithubPreview (log : List Finding) (fixed : LC) : LC :=
  let rows := log.foldl (fun acc item => acc ++ rowMd item) []
  "### 🛡️ Governance Check\n".toList ++
  "**Status:** Failed (Auto-Fixed)\n\n".toList ++
  "| Type | Finding |\n| :--- | :--- |\n".toList ++
  rows ++
  "\n```python\n".toList ++ fixed.take 200 ++ "...\n```".toList

theorem diffFuel_nil_left (n : Nat) (bs : List LC) :
    diffFuel n [] bs = bs.map (fun b => ⟨DiffKind.added, b⟩) := by
  cases n <;> rfl

theorem diffFuel_nil_right (n : Nat) (a : LC) (as : List LC) :
    diffFuel n (a :: as) [] = (a :: as).map (fun a' => ⟨DiffKind.removed, a'⟩) := by
  cases n <;> rfl

theorem diffFuel_fuel_irrel :
    ∀ (n m : Nat) (as bs : List LC), as.length + bs.length ≤ n →
      as.length + bs.length ≤ m → diffFuel n as bs = diffFuel m as bs := by
  intro n
  induction n with
  | zero =>
    intro m as bs hn _
    cases as with
    | nil => rw [diffFuel_nil_left, diffFuel_nil_left]
    | cons a as =>
      cases bs with
      | nil => rw [diffFuel_nil_right, diffFuel_nil_right]
      | cons b bs => simp at hn
  | succ n ih =>
    intro m as bs hn hm
    cases as with
    | nil => rw [diffFuel_nil_left, diffFuel_nil_left]
    | cons a as =>
      cases bs with
      | nil => rw [diffFuel_nil_right, diffFuel_nil_right]
      | cons b bs =>
        cases m with
        | zero => simp at hm
        | succ m' =>
          simp only [List.length_cons] at hn hm
          show diffFuel (Nat.succ n) (a :: as) (b :: bs) = diffFuel (Nat.succ m') (a :: as) (b :: bs)
          rw [diffFuel, diffFuel]
          by_cases hab : a = b
          · rw [if_pos hab, if_pos hab,
              ih m' as bs (by omega) (by omega)]
          · rw [if_neg hab, if_neg hab]
            by_cases hl : lcsLen (a :: as) bs ≤ lcsLen as (b :: bs)
            · rw [if_pos hl, if_pos hl,
                ih m' as (b :: bs) (by simp only [List.length_cons]; omega)
                  (by simp only [List.length_cons]; omega)]
            · rw [if_neg hl, if_neg hl,
                ih m' (a :: as) bs (by simp only [List.length_cons]; omega)
                  (by simp only [List.length_cons]; omega)]

theorem diffLines_nil_left (bs : List LC) :
    diffLines [] bs = bs.map (fun b => ⟨DiffKind.added, b⟩) :=
  diffFuel_nil_left _ _

theorem diffLines_nil_right (a : LC) (as : List LC) :
    diffLines (a :: as) [] = (a :: as).map (fun a' => ⟨DiffKind.removed, a'⟩) :=
  diffFuel_nil_right _ _ _

theorem diffLines_cons_cons (a b : LC) (as bs : List LC) :
    diffLines (a :: as) (b :: bs) =
      if a = b then ⟨DiffKind.unchanged, a⟩ :: diffLines as bs
      else if lcsLen (a :: as) bs ≤ lcsLen as (b :: bs) then
        ⟨DiffKind.removed, a⟩ :: diffLines as (b :: bs)
      else ⟨DiffKind.added, b⟩ :: diffLines (a :: as) bs := by
  have h1 : (a :: as).length + (b :: bs).length = Nat.succ (as.length + bs.length + 1) := by
    simp only [List.length_cons]; omega
  rw [diffLines, h1, diffFuel]
  by_cases hab : a = b
  · rw [if_pos hab, if_pos hab, diffLines,
      diffFuel_fuel_irrel (as.length + bs.length + 1) (as.length + bs.length) as bs
        (by omega) (le_refl _)]
  · rw [if_neg hab, if_neg hab]
    by_cases hl : lcsLen (a :: as) bs ≤ lcsLen as (b :: bs)
    · rw [if_pos hl, if_pos hl, diffLines,
        diffFuel_fuel_irrel (as.length + bs.length + 1) (as.length + (b :: bs).length)
          as (b :: bs) (by simp only [List.length_cons]; omega)
          (by simp only [List.length_cons]; omega)]
    · rw [if_neg hl, if_neg hl, diffLines,
        diffFuel_fuel_irrel (as.length + bs.length + 1) ((a :: as).length + bs.length)
          (a :: as) bs (by simp only [List.length_cons]; omega)
          (by simp only [List.length_cons]; omega)]

theorem nonRemoved_nil : nonRemoved [] = [] := rfl

theorem nonRemoved_cons (d : DiffLine) (ds : List DiffLine) :
    nonRemoved (d :: ds) =
      if d.kind = DiffKind.removed then nonRemoved ds else d.content :: nonRemoved ds := by
  by_cases h : d.kind = DiffKind.removed <;>
    simp [nonRemoved, List.filterMap_cons, h]

/-- The non-removed lines of the diff are exactly the right-hand lines. -/
theorem nonRemoved_diffLines : ∀ (as bs : List LC), nonRemoved (diffLines as bs) = bs := by
  suffices H : ∀ n (as bs : List LC), as.length + bs.length ≤ n →
      nonRemoved (diffLines as bs) = bs from
    fun as bs => H (as.length + bs.length) as bs (le_refl _)
  intro n
  induction n with
  | zero =>
    intro as bs h
    have ha : as = [] := List.length_eq_zero.1 (by omega)
    have hb : bs = [] := List.length_eq_zero.1 (by omega)
    subst ha; subst hb; rfl
  | succ n ih =>
    intro as bs h
    cases as with
    | nil =>
      rw [diffLines_nil_left]
      induction bs with
      | nil => rfl
      | cons b bs ihb =>
        simp only [List.map_cons, nonRemoved_cons]
        rw [if_neg (by simp)]
        simp only [List.map] at ihb
        rw [ihb (by simp at h ⊢; omega)]
    | cons a as =>
      cases bs with
      | nil =>
        rw [diffLines_nil_right]
        have : ∀ l : List LC, nonRemoved (l.map (fun a' => ⟨DiffKind.removed, a'⟩)) = [] := by
          intro l
          induction l with
          | nil => rfl
          | cons x xs ihx => simp only [List.map_cons, nonRemoved_cons, if_pos rfl]; exact ihx
        exact this (a :: as)
      | cons b bs =>
        simp only [List.length_cons] at h
        rw [diffLines_cons_cons]
        by_cases hab : a = b
        · rw [if_pos hab, nonRemoved_cons, if_neg (by simp)]
          rw [ih as bs (by omega)]
          rw [hab]
        · rw [if_neg hab]
          by_cases hl : lcsLen (a :: as) bs ≤ lcsLen as (b :: bs)
          · rw [if_pos hl, nonRemoved_cons, if_pos rfl]
            exact ih as (b :: bs) (by simp; omega)
          · rw [if_neg hl, nonRemoved_cons, if_neg (by simp)]
            rw [ih (a :: as) bs (by simp; omega)]

theorem splitlines_eq_nil : ∀ {s : LC}, splitlines s = [] → s = [] := by
  intro s h
  match s with
  | [] => rfl
  | [c] =>
    rw [splitlines_single] at h
    by_cases hb : isLineBreak c = true
    · rw [if_pos hb] at h; cases h
    · rw [if_neg hb] at h; cases h
  | c :: d :: cs =>
    rw [splitlines_cons₂] at h
    by_cases h1 : c = '\r' ∧ d = '\n'
    · rw [if_pos h1] at h; cases h
    · rw [if_neg h1] at h
      by_cases h2 : isLineBreak c = true
      · rw [if_pos h2] at h; cases h
      · rw [if_neg h2] at h
        revert h
        cases hsp : splitlines (d :: cs) with
        | nil => intro h; cases h
        | cons l ls => intro h; cases h

theorem joinNL_nil : joinNL [] = [] := by
  simp [joinNL, intercalate_nil]

theorem joinNL_single (l : LC) : joinNL [l] = l := by
  simp [joinNL, intercalate_single]

theorem joinNL_cons_cons (c : Char) (l : LC) (ls : List LC) :
    joinNL ((c :: l) :: ls) = c :: joinNL (l :: ls) :=
  intercalate_cons_cons _ _ _ _

theorem joinNL_nil_cons (x : LC) (xs : List LC) :
    joinNL ([] :: x :: xs) = '\n' :: joinNL (x :: xs) := by
  rw [joinNL, intercalate_cons₂]
  rfl

/-- Joining the split lines with newlines restores the text whenever every
line-boundary character of the text is a plain `'\n'` and the text does
not end with a newline (for other Python line boundaries, such as
`"\r\n"`, splitting and rejoining replaces them by `'\n'`). -/
theorem joinNL_splitlines : ∀ s : LC,
    (∀ ch ∈ s, isLineBreak ch = true → ch = '\n') → s.getLast? ≠ some '\n' →
    joinNL (splitlines s) = s := by
  suffices H : ∀ n, ∀ s : LC, s.length ≤ n →
      (∀ ch ∈ s, isLineBreak ch = true → ch = '\n') → s.getLast? ≠ some '\n' →
      joinNL (splitlines s) = s from
    fun s => H s.length s (le_refl _)
  intro n
  induction n with
  | zero =>
    intro s hlen _ _
    have : s = [] := List.length_eq_zero.1 (Nat.le_zero.1 hlen)
    subst this
    exact joinNL_nil
  | succ n ih =>
    intro s hlen hOnly hLast
    match s with
    | [] => exact joinNL_nil
    | [c] =>
      have hb : isLineBreak c = false := by
        cases hb : isLineBreak c
        · rfl
        · have hc : c = '\n' := hOnly c (List.mem_singleton_self c) hb
          subst hc
          simp at hLast
      rw [splitlines_single, if_neg (by simp [hb])]
      exact joinNL_single [c]
    | c :: d :: cs =>
      have hOnly' : ∀ ch ∈ d :: cs, isLineBreak ch = true → ch = '\n' :=
        fun ch hch => hOnly ch (List.mem_cons_of_mem _ hch)
      have hLast' : (d :: cs).getLast? ≠ some '\n' := by
        rw [← List.getLast?_cons_cons (a := c)]
        exact hLast
      have hlen' : (d :: cs).length ≤ n := by
        simp only [List.length_cons] at hlen ⊢
        omega
      have htail : joinNL (splitlines (d :: cs)) = d :: cs := ih (d :: cs) hlen' hOnly' hLast'
      by_cases hcr : c = '\r' ∧ d = '\n'
      · exfalso
        have hc : c = '\n' := hOnly c (List.mem_cons_self _ _) (by rw [hcr.1]; decide)
        rw [hcr.1] at hc
        exact absurd hc (by decide)
      · rw [splitlines_cons₂, if_neg hcr]
        by_cases hb : isLineBreak c = true
        · have hcn : c = '\n' := hOnly c (List.mem_cons_self _ _) hb
          rw [if_pos hb]
          rcases hsp : splitlines (d :: cs) with _ | ⟨l, ls⟩
          · exact absurd (splitlines_eq_nil hsp) (by simp)
          · rw [hsp] at htail
            rw [joinNL_nil_cons, htail, hcn]
        · rw [if_neg hb]
          rcases hsp : splitlines (d :: cs) with _ | ⟨l, ls⟩
          · exact absurd (splitlines_eq_nil hsp) (by simp)
          · rw [hsp] at htail
            show joinNL ((c :: l) :: ls) = c :: d :: cs
            rw [joinNL_cons_cons, htail]

theorem rows_foldl (log : List Finding) :
    ∀ acc : LC, log.foldl (fun acc item => acc ++ rowMd item) acc =
      acc ++ (log.map rowMd).flatten := by
  induction log with
  | nil => intro acc; simp
  | cons f fs ih =>
    intro acc
    simp only [List.foldl_cons, ih, List.map_cons, List.flatten_cons, List.append_assoc]

theorem rulesFor_splunk : rulesFor ("Splunk Enterprise".toList) = splunkRules := by
  rw [rulesFor, if_pos rfl]

theorem rulesFor_unknown {m : LC}
    (h1 : m ≠ "Splunk Enterprise".toList)
    (h2 : m ≠ "NVIDIA Omniverse".toList)
    (h3 : m ≠ "Standard Python (PEP8)".toList) :
    rulesFor m = [] := by
  rw [rulesFor, if_neg h1, if_neg h2, if_neg h3]

theorem foldl_runStep_no_fire (t : LC) :
    ∀ (rs : List Rule) (st : List Finding × List (LC × LC)),
      (∀ r ∈ rs, r.pred t = false) → rs.foldl (runStep t) st = st := by
  intro rs
  induction rs with
  | nil => intro st _; rfl
  | cons r rs ih =>
    intro st h
    rw [List.foldl_cons, runStep, if_neg (by rw [h r (List.mem_cons_self _ _)]; simp)]
    exact ih st (fun r' hr' => h r' (List.mem_cons_of_mem _ hr'))

theorem runRules_of_log_nil {rs : List Rule} {t : LC}
    (h : (runRules rs t).1 = []) : runRules rs t = ([], []) := by
  have hf : firedFindings rs t = [] := by
    have h2 : (runRules rs t).1 = [] ++ firedFindings rs t := runRules_go_fst t rs [] []
    rw [h] at h2
    simpa using h2.symm
  have hall : ∀ r ∈ rs, r.pred t = false := by
    intro r hr
    have := List.filter_eq_nil_iff.1 (List.map_eq_nil_iff.1 hf) r hr
    simpa using this
  exact foldl_runStep_no_fire t rs ([], []) hall

/-- The correction chain of the Splunk port rule: whatever corrections come
before it (`A`, which cannot touch `"port=80"`) and after it (`B`, which
cannot touch `"port=8089"`), the corrected text contains `"port=8089"`. -/
theorem splunk_port_chain (t : LC) (A B : List (LC × LC))
    (hA : ∀ p ∈ A, ¬ Touches ("port=80".toList) p.1)
    (hB : ∀ p ∈ B, ¬ Touches ("port=8089".toList) p.1)
    (h : Occ ("port=80".toList) t) :
    Occ ("port=8089".toList)
      (applyFixes t (A ++ ("port=80".toList, "port=8089".toList) ::
        ("port 80".toList, "port 8089".toList) :: B)) := by
  rw [applyFixes_append, applyFixes_cons, applyFixes_cons]
  apply occ_applyFixes B _ hB
  apply occ_repl_of_occ (by decide)
  exact occ_repl_insert (by decide) (occ_applyFixes A t hA h)

/-- The correction chain of the Splunk credential rule: after its third
correction replaces every `"username="`, no later correction (`B`, whose
replacement strings cannot touch `"username="`) can recreate one. -/
theorem splunk_auth_chain (t : LC) (A B : List (LC × LC))
    (hB : ∀ p ∈ B, ¬ Touches ("username=".toList) p.2) :
    ¬ Occ ("username=".toList)
      (applyFixes t (A ++
        ("username='admin',".toList, "splunk_token=os.environ['SPLUNK_TOKEN']".toList) ::
        ("password='changeme'".toList, "".toList) ::
        ("username=".toList, "# Auth updated to Token".toList) :: B)) := by
  rw [applyFixes_append, applyFixes_cons, applyFixes_cons, applyFixes_cons]
  apply not_occ_applyFixes B _ hB
  exact not_occ_repl_self (by decide) (by decide) _

/-- C1 (amended): for every input text containing `"port=80"`, auditing
under the Splunk profile logs the `LOGIC`/`High` port-correction finding
and the corrected text contains `"port=8089"`.  (The original claim's
final conjunct — that the corrected text does not contain `"port=80"` —
is impossible, since `"port=8089"` itself contains `"port=80"`; see the
counterexample.) -/
theorem splunk_port_scenario (t : LC) (log : List Finding)
    (h : Occ ("port=80".toList) t) :
    (⟨"LOGIC".toList, "High".toList, "Accuracy: Mgmt port is 8089, not 80.".toList⟩ : Finding) ∈
      (auditContent ⟨"Splunk Enterprise".toList, log⟩ t).1.audit_log ∧
    Occ ("port=8089".toList) ((auditContent ⟨"Splunk Enterprise".toList, log⟩ t).2) := by
  have hp : rSplunkPort.pred t = true := by
    show (occB ("port 80".toList) t || occB ("port=80".toList) t) = true
    rw [Bool.or_eq_true]
    exact Or.inr (occB_iff.2 h)
  have hrun : runRules (rulesFor ("Splunk Enterprise".toList)) t =
      (firedFindings splunkRules t,
       allPairs (splunkRules.filter (fun r => r.pred t))) := by
    rw [rulesFor_splunk]
    exact runRules_eq splunkRules t (by decide)
  have hfil : splunkRules.filter (fun r => r.pred t) =
      List.filter (fun r => r.pred t) [rSplunkVersion] ++ rSplunkPort ::
      List.filter (fun r => r.pred t) [rSplunkDate, rSplunkAuth, rSplunkVoice] := by
    show List.filter (fun r => r.pred t)
        ([rSplunkVersion] ++ rSplunkPort :: [rSplunkDate, rSplunkAuth, rSplunkVoice]) = _
    rw [List.filter_append]
    congr 1
    exact List.filter_cons_of_pos hp
  constructor
  · show _ ∈ (runRules (rulesFor ("Splunk Enterprise".toList)) t).1
    rw [hrun]
    exact List.mem_map.2 ⟨rSplunkPort, List.mem_filter.2 ⟨by simp [splunkRules], hp⟩, rfl⟩
  · show Occ _ (applyFixes t (runRules (rulesFor ("Splunk Enterprise".toList)) t).2)
    rw [hrun]
    show Occ _ (applyFixes t (allPairs (splunkRules.filter (fun r => r.pred t))))
    rw [hfil, allPairs_append, allPairs_cons]
    apply splunk_port_chain t _ _ ?_ ?_ h
    · intro p hp'
      exact (by decide :
        ∀ y ∈ allPairs [rSplunkVersion], ¬ Touches ("port=80".toList) y.1)
        p (mem_allPairs_filter hp')
    · intro p hp'
      exact (by decide :
        ∀ y ∈ allPairs [rSplunkDate, rSplunkAuth, rSplunkVoice],
          ¬ Touches ("port=8089".toList) y.1)
        p (mem_allPairs_filter hp')

/-- C1 witness: the theorem applied at the concrete input `"port=80"`. -/
theorem splunk_port_scenario_witness :
    Occ ("port=80".toList) ("port=80".toList) ∧
    ((⟨"LOGIC".toList, "High".toList, "Accuracy: Mgmt port is 8089, not 80.".toList⟩ : Finding) ∈
      (auditContent ⟨"Splunk Enterprise".toList, []⟩ ("port=80".toList)).1.audit_log ∧
     Occ ("port=8089".toList)
      ((auditContent ⟨"Splunk Enterprise".toList, []⟩ ("port=80".toList)).2)) :=
  ⟨by decide, splunk_port_scenario ("port=80".toList) [] (by decide)⟩

/-- C1 counterexample: on input `"port=80"` the corrected text is
`"port=8089"`, which still contains `"port=80"` — so the claim's
"corrected text does not contain `port=80`" conjunct is false. -/
theorem splunk_port_scenario_cex :
    (auditContent ⟨"Splunk Enterprise".toList, []⟩ ("port=80".toList)).2 =
      "port=8089".toList ∧
    Occ ("port=80".toList)
      ((auditContent ⟨"Splunk Enterprise".toList, []⟩ ("port=80".toList)).2) := by
  decide

/-- C2: for every input text containing `"username='admin'"`, auditing
under the Splunk profile logs the `SECURITY`/`Critical` finding and the
corrected text no longer contains `"username="`. -/
theorem splunk_credential_scenario (t : LC) (log : List Finding)
    (h : Occ ("username='admin'".toList) t) :
    (⟨"SECURITY".toList, "Critical".toList, "Auth: Basic Auth deprecated. Used Token.".toList⟩ : Finding) ∈
      (auditContent ⟨"Splunk Enterprise".toList, log⟩ t).1.audit_log ∧
    ¬ Occ ("username=".toList) ((auditContent ⟨"Splunk Enterprise".toList, log⟩ t).2) := by
  have hu : Occ ("username=".toList) t := by
    have he : ("username='admin'".toList : LC) = "username=".toList ++ "'admin'".toList := by
      decide
    exact Occ.of_append_left (he ▸ h)
  have hp : rSplunkAuth.pred t = true := occB_iff.2 hu
  have hrun : runRules (rulesFor ("Splunk Enterprise".toList)) t =
      (firedFindings splunkRules t,
       allPairs (splunkRules.filter (fun r => r.pred t))) := by
    rw [rulesFor_splunk]
    exact runRules_eq splunkRules t (by decide)
  have hfil : splunkRules.filter (fun r => r.pred t) =
      List.filter (fun r => r.pred t) [rSplunkVersion, rSplunkPort, rSplunkDate] ++
      rSplunkAuth :: List.filter (fun r => r.pred t) [rSplunkVoice] := by
    show List.filter (fun r => r.pred t)
        ([rSplunkVersion, rSplunkPort, rSplunkDate] ++ rSplunkAuth :: [rSplunkVoice]) = _
    rw [List.filter_append]
    congr 1
    exact List.filter_cons_of_pos hp
  constructor
  · show _ ∈ (runRules (rulesFor ("Splunk Enterprise".toList)) t).1
    rw [hrun]
    exact List.mem_map.2 ⟨rSplunkAuth, List.mem_filter.2 ⟨by simp [splunkRules], hp⟩, rfl⟩
  · show ¬ Occ _ (applyFixes t (runRules (rulesFor ("Splunk Enterprise".toList)) t).2)
    rw [hrun]
    show ¬ Occ _ (applyFixes t (allPairs (splunkRules.filter (fun r => r.pred t))))
    rw [hfil, allPairs_append, allPairs_cons]
    apply splunk_auth_chain t _ _ ?_
    intro p hp'
    exact (by decide :
      ∀ y ∈ allPairs [rSplunkVoice], ¬ Touches ("username=".toList) y.2)
      p (mem_allPairs_filter hp')

/-- C2 witness: the theorem applied at the concrete input
`"username='admin'"`. -/
theorem splunk_credential_scenario_witness :
    Occ ("username='admin'".toList) ("username='admin'".toList) ∧
    ((⟨"SECURITY".toList, "Critical".toList, "Auth: Basic Auth deprecated. Used Token.".toList⟩ : Finding) ∈
      (auditContent ⟨"Splunk Enterprise".toList, []⟩ ("username='admin'".toList)).1.audit_log ∧
     ¬ Occ ("username=".toList)
      ((auditContent ⟨"Splunk Enterprise".toList, []⟩ ("username='admin'".toList)).2)) :=
  ⟨by decide, splunk_credential_scenario ("username='admin'".toList) [] (by decide)⟩

/-- C3: for every text and every profile, if the audit produced an empty
list of findings then the corrected text is exactly the input. -/
theorem clean_document_identity (e : GovernanceEngine) (t : LC)
    (h : (auditContent e t).1.audit_log = []) : (auditContent e t).2 = t := by
  have h' : (runRules (rulesFor e.mode) t).1 = [] := h
  show applyFixes t (runRules (rulesFor e.mode) t).2 = t
  rw [runRules_of_log_nil h']
  rfl

/-- C3 witness: a clean Splunk input is returned unchanged. -/
theorem clean_document_identity_witness :
    (auditContent ⟨"Splunk Enterprise".toList, []⟩ ("hello world".toList)).1.audit_log = [] ∧
    (auditContent ⟨"Splunk Enterprise".toList, []⟩ ("hello world".toList)).2 =
      "hello world".toList :=
  ⟨by decide, clean_document_identity ⟨"Splunk Enterprise".toList, []⟩ ("hello world".toList)
    (by decide)⟩

/-- C4: auditing is deterministic: a second call on the same engine (whose
instance log was overwritten by the first call) returns the identical
result — same findings in the same order, same corrected text — and the
result does not depend on the incoming log state at all. -/
theorem audit_deterministic :
    ∀ (m : LC) (l : List Finding) (t : LC),
      auditContent ⟨m, (auditContent ⟨m, l⟩ t).1.audit_log⟩ t = auditContent ⟨m, l⟩ t ∧
      ∀ l' : List Finding, auditContent ⟨m, l⟩ t = auditContent ⟨m, l'⟩ t :=
  fun _ _ _ => ⟨rfl, fun _ => rfl⟩

/-- C5: every rule predicate is evaluated on the original input text (the
audit log equals the findings of the rules whose predicates hold on `t`
itself), and consequently the multiset of findings is invariant under
permuting the rule list. -/
theorem predicates_see_original :
    (∀ (e : GovernanceEngine) (t : LC),
      (auditContent e t).1.audit_log = firedFindings (rulesFor e.mode) t) ∧
    ∀ (rs rs' : List Rule) (t : LC), rs.Perm rs' →
      (firedFindings rs t).Perm (firedFindings rs' t) := by
  constructor
  · intro e t
    show (runRules (rulesFor e.mode) t).1 = firedFindings (rulesFor e.mode) t
    have h2 : (runRules (rulesFor e.mode) t).1 =
        [] ++ firedFindings (rulesFor e.mode) t :=
      runRules_go_fst t (rulesFor e.mode) [] []
    simpa using h2
  · intro rs rs' t hperm
    exact (hperm.filter _).map _

/-- C5 witness: the log equation at a concrete engine and input, and the
permutation invariance at a concrete transposition of two Splunk rules. -/
theorem predicates_see_original_witness :
    (auditContent ⟨"Splunk Enterprise".toList, []⟩ ("port=80".toList)).1.audit_log =
      firedFindings (rulesFor ("Splunk Enterprise".toList)) ("port=80".toList) ∧
    (firedFindings [rSplunkVersion, rSplunkPort] ("port=80".toList)).Perm
      (firedFindings [rSplunkPort, rSplunkVersion] ("port=80".toList)) :=
  ⟨predicates_see_original.1 ⟨"Splunk Enterprise".toList, []⟩ ("port=80".toList),
   predicates_see_original.2 _ _ ("port=80".toList) (List.Perm.swap _ _ _)⟩

/-- C6 (amended): an audit under an unregistered profile name does not
fail with any `ProfileNotFound` condition — the code has no such error
path.  It succeeds, returning an empty audit log and the input unchanged. -/
theorem unknown_profile_no_error (m : LC) (l : List Finding) (t : LC)
    (h1 : m ≠ "Splunk Enterprise".toList)
    (h2 : m ≠ "NVIDIA Omniverse".toList)
    (h3 : m ≠ "Standard Python (PEP8)".toList) :
    (auditContent ⟨m, l⟩ t).1.audit_log = [] ∧ (auditContent ⟨m, l⟩ t).2 = t := by
  have hr : rulesFor m = [] := rulesFor_unknown h1 h2 h3
  constructor
  · show (runRules (rulesFor m) t).1 = []
    rw [hr]
    rfl
  · show applyFixes t (runRules (rulesFor m) t).2 = t
    rw [hr]
    rfl

/-- C6 witness: the theorem applied at the profile name `"nonexistent"`. -/
theorem unknown_profile_no_error_witness :
    (auditContent ⟨"nonexistent".toList, []⟩ ("x".toList)).1.audit_log = [] ∧
    (auditContent ⟨"nonexistent".toList, []⟩ ("x".toList)).2 = "x".toList :=
  unknown_profile_no_error ("nonexistent".toList) [] ("x".toList)
    (by decide) (by decide) (by decide)

/-- C6 counterexample: auditing under `"nonexistent"` succeeds — it
returns a value (empty log, unchanged text) instead of failing with a
`ProfileNotFound` condition, which does not exist anywhere in the code. -/
theorem unknown_profile_no_error_cex :
    auditContent ⟨"nonexistent".toList, []⟩ ("some draft".toList) =
      (⟨"nonexistent".toList, []⟩, "some draft".toList) := by
  decide

/-- C7 (amended): joining the non-removed diff lines with newlines yields
the newline-join of the corrected text's lines; this equals the corrected
text itself whenever every line-boundary character of the corrected text
is a plain newline and the text does not end with one.  (A trailing
boundary is dropped by the reconstruction — see the counterexample — and
any other Python line boundary, such as `"\r\n"`, is rejoined as
`'\n'`.) -/
theorem diff_round_trip (original corrected : LC) :
    joinNL (nonRemoved (renderDiff original corrected)) = joinNL (splitlines corrected) ∧
    ((∀ ch ∈ corrected, isLineBreak ch = true → ch = '\n') →
      corrected.getLast? ≠ some '\n' →
      joinNL (nonRemoved (renderDiff original corrected)) = corrected) := by
  constructor
  · rw [renderDiff, nonRemoved_diffLines]
  · intro hOnly hLast
    rw [renderDiff, nonRemoved_diffLines, joinNL_splitlines corrected hOnly hLast]

/-- C7 witness: the round trip at concrete texts whose only line boundary
is a newline and with no trailing newline. -/
theorem diff_round_trip_witness :
    joinNL (nonRemoved (renderDiff ("a".toList) ("b\nc".toList))) =
      joinNL (splitlines ("b\nc".toList)) ∧
    joinNL (nonRemoved (renderDiff ("a".toList) ("b\nc".toList))) = "b\nc".toList :=
  ⟨(diff_round_trip ("a".toList) ("b\nc".toList)).1,
   (diff_round_trip ("a".toList) ("b\nc".toList)).2 (by decide) (by decide)⟩

/-- C7 counterexample: for corrected text `"\n"` the reconstruction from
non-removed diff lines is `""`, not `"\n"` — the round trip as claimed
fails on texts with a trailing newline. -/
theorem diff_round_trip_cex :
    joinNL (nonRemoved (renderDiff ("".toList) ("\n".toList))) = "".toList ∧
    joinNL (nonRemoved (renderDiff ("".toList) ("\n".toList))) ≠ "\n".toList := by
  decide

/-- C8 (amended): for every findings list and corrected text, the
formatted report always states `Failed (Auto-Fixed)` — even when the
findings list is empty, there is no `Pass` status — has one table row per
finding, and always shows the first 200 characters of the corrected text
with the `"..."` marker appended unconditionally (`truncate_at` is the
hard-coded 200, and the marker is not conditional on length). -/
theorem report_format (log : List Finding) (fixed : LC) :
    renderGithubPreview log fixed =
      "### 🛡️ Governance Check\n".toList ++
      "**Status:** Failed (Auto-Fixed)\n\n".toList ++
      "| Type | Finding |\n| :--- | :--- |\n".toList ++
      (log.map rowMd).flatten ++
      "\n```python\n".toList ++ fixed.take 200 ++ "...\n```".toList ∧
    (log.map rowMd).length = log.length ∧
    Occ ("**Status:** Failed (Auto-Fixed)".toList) (renderGithubPreview log fixed) := by
  have heq : renderGithubPreview log fixed =
      "### 🛡️ Governance Check\n".toList ++
      "**Status:** Failed (Auto-Fixed)\n\n".toList ++
      "| Type | Finding |\n| :--- | :--- |\n".toList ++
      (log.map rowMd).flatten ++
      "\n```python\n".toList ++ fixed.take 200 ++ "...\n```".toList := by
    show "### 🛡️ Governance Check\n".toList ++
      "**Status:** Failed (Auto-Fixed)\n\n".toList ++
      "| Type | Finding |\n| :--- | :--- |\n".toList ++
      (log.foldl (fun acc item => acc ++ rowMd item) []) ++
      "\n```python\n".toList ++ fixed.take 200 ++ "...\n```".toList = _
    rw [rows_foldl log [], List.nil_append]
  refine ⟨heq, by simp, ?_⟩
  have hx : ("**Status:** Failed (Auto-Fixed)\n\n".toList : LC) =
      "**Status:** Failed (Auto-Fixed)".toList ++ "\n\n".toList := by decide
  rw [heq, hx]
  refine ⟨"### 🛡️ Governance Check\n".toList,
    "\n\n".toList ++ "| Type | Finding |\n| :--- | :--- |\n".toList ++
      (log.map rowMd).flatten ++
      "\n```python\n".toList ++ fixed.take 200 ++ "...\n```".toList, ?_⟩
  simp [List.append_assoc]

/-- C8 counterexample: with an empty findings list and a 1-character
corrected text the report still says `Failed (Auto-Fixed)` (never `Pass`)
and still appends the `"..."` truncation marker although the text is far
shorter than 200 characters. -/
theorem report_format_cex :
    ¬ Occ ("Pass".toList) (renderGithubPreview [] ("x".toList)) ∧
    Occ ("**Status:** Failed (Auto-Fixed)".toList) (renderGithubPreview [] ("x".toList)) ∧
    ("x".toList).length ≤ 200 ∧
    Occ ("...".toList) (renderGithubPreview [] ("x".toList)) := by
  decide

/-- C9: the `"Data is not sent"` Splunk rule fires on an input in which
none of its correction find strings occur — the predicate/correction
consistency invariant fails in the code.  The rule logs its finding but
its correction is a no-op and the text comes back unchanged. -/
theorem rule_correction_mismatch :
    rSplunkVoice.pred ("Data is not sent anywhere.".toList) = true ∧
    (∀ p ∈ rSplunkVoice.pairs, ¬ Occ p.1 ("Data is not sent anywhere.".toList)) ∧
    auditContent ⟨"Splunk Enterprise".toList, []⟩ ("Data is not sent anywhere.".toList) =
      (⟨"Splunk Enterprise".toList,
        [⟨"STYLE".toList, "Low".toList, "Voice: Passive voice rewritten.".toList⟩]⟩,
       "Data is not sent anywhere.".toList) := by
  decide

/-- C10: for every mode string other than the three recognized profiles,
`audit_content` returns the input text unchanged and an empty audit log —
no finding, no correction, no error. -/
theorem unknown_mode_identity (m : LC) (l : List Finding) (t : LC)
    (h1 : m ≠ "Splunk Enterprise".toList)
    (h2 : m ≠ "NVIDIA Omniverse".toList)
    (h3 : m ≠ "Standard Python (PEP8)".toList) :
    auditContent ⟨m, l⟩ t = (⟨m, []⟩, t) := by
  have hr : rulesFor m = [] := rulesFor_unknown h1 h2 h3
  show (⟨m, (runRules (rulesFor m) t).1⟩, applyFixes t (runRules (rulesFor m) t).2) =
    ((⟨m, []⟩ : GovernanceEngine), t)
  rw [hr]
  rfl

/-- C10 witness: the theorem applied at the mode string `"unknown"`. -/
theorem unknown_mode_identity_witness :
    auditContent ⟨"unknown".toList, []⟩ ("draft".toList) =
      (⟨"unknown".toList, []⟩, "draft".toList) :=
  unknown_mode_identity ("unknown".toList) [] ("draft".toList)
    (by decide) (by decide) (by decide)
